import Mathlib

/-!
Verification of `scripts/bulk_update_org_urls.py` (bulk-update-github-org-urls).

Strings are modelled as `List Char`.  Python's `str.count` / `str.replace`
(non-overlapping, left-to-right, greedy) are modelled by `pyCount` /
`pyReplace`, and the greedy split underlying them by `pySplit`.  The scans
are written with an explicit fuel argument (instantiated with the length of
the text, which always suffices because every step consumes at least one
character) so that the definitions compute by kernel reduction.
-/

namespace BulkUpdate

/-- Greedy left-to-right scan counting non-overlapping occurrences of `old`
(Python `str.count` for a nonempty needle).  When `old` matches at the head,
the scan continues after the whole match (`rest.drop (old.length - 1)`). -/
def pyCountF (old : List Char) : Nat → List Char → Nat
  | _, [] => 0
  | 0, _ :: _ => 0
  | f + 1, c :: rest =>
    if old.isPrefixOf (c :: rest) then
      1 + pyCountF old f (rest.drop (old.length - 1))
    else
      pyCountF old f rest

/-- Greedy left-to-right replacement of non-overlapping occurrences of `old`
by `new` (Python `str.replace` for a nonempty needle). -/
def pyReplaceF (old new : List Char) : Nat → List Char → List Char
  | _, [] => []
  | 0, l => l
  | f + 1, c :: rest =>
    if old.isPrefixOf (c :: rest) then
      new ++ pyReplaceF old new f (rest.drop (old.length - 1))
    else
      c :: pyReplaceF old new f rest

/-- The greedy split of `text` on the pattern `old`: the (old-free) segments
lying between the non-overlapping occurrences found by the scan above. -/
def pySplitF (old : List Char) : Nat → List Char → List (List Char)
  | _, [] => [[]]
  | 0, l => [l]
  | f + 1, c :: rest =>
    if old.isPrefixOf (c :: rest) then
      [] :: pySplitF old f (rest.drop (old.length - 1))
    else
      match pySplitF old f rest with
      | [] => [[c]]
      | s :: ss => (c :: s) :: ss

/-- Python `text.count(old)`, including the empty-needle convention
`text.count("") == len(text) + 1`. -/
def pyCount (text old : List Char) : Nat :=
  if old = [] then text.length + 1 else pyCountF old text.length text

/-- Python `text.replace(old, new)`, including the empty-needle convention
(`new` is inserted before every character and at the end). -/
def pyReplace (text old new : List Char) : List Char :=
  if old = [] then text.foldr (fun c acc => new ++ c :: acc) new
  else pyReplaceF old new text.length text

/-- The greedy split of `text` on a nonempty `old`, fuelled by the length. -/
def pySplit (old text : List Char) : List (List Char) :=
  pySplitF old text.length text

/-- `replace_old_urls` (script lines 228-232): count the occurrences of `old`
and, when there are any, replace them all by `new`; return both. -/
def replace_old_urls (text old new : List Char) : List Char × Nat :=
  let count := pyCount text old
  if count ≠ 0 then (pyReplace text old new, count) else (text, count)

/-- The literals `old` and `new` are overlap-free: `old` is nonempty, neither
literal contains the other, no nonempty proper suffix of `old` is a prefix of
`new`, and no nonempty proper prefix of `old` is a suffix of `new`.  The
default configuration `old = "TensoRaws"`, `new = "EutropicAI"` satisfies
this. -/
def OverlapFree (old new : List Char) : Prop :=
  old ≠ [] ∧ ¬ old <:+: new ∧ ¬ new <:+: old ∧
    (∀ k, k < old.length → 0 < k → ¬ old.drop k <+: new) ∧
    (∀ k, k < old.length → 0 < k → ¬ old.take k <:+ new)

instance (old new : List Char) : Decidable (OverlapFree old new) := by
  unfold OverlapFree; infer_instance

/-! ### License-link patterns (script lines 119-154)

`build_blob_license_regex` and `build_raw_license_regex` compile, with
`re.IGNORECASE`, a markdown-link pattern: a bracketed lazy label excluding
the closing bracket and containing `licen[cs]e`, then the literal host and
owner alternation `TensoRaws | EutropicAI`, the escaped repository name,
(for the blob form) the literal `blob` path segment, a nonempty greedy run
over the ref character class (ASCII letters, digits, dot, underscore,
hyphen, slash), a slash, `LICENSE` or `LICENCE`, an optional `.md`, and the
closing parenthesis.  Because the lazy label groups exclude the closing
bracket, the label of a match is exactly the text up to the first one;
because the closing parenthesis is not in the ref character class, the
greedy ref run extends to the first non-class character, which must be that
parenthesis.  The matcher below realises this deterministic reading of the
backtracking search. -/

/-- Case-insensitive character comparison (`re.IGNORECASE`, ASCII case
folding as performed by `Char.toLower`). -/
def ciEq (a b : Char) : Bool := a.toLower = b.toLower

/-- Match the literal `pat` case-insensitively at the head of `s`, returning
the remainder. -/
def ciPrefixDrop : List Char → List Char → Option (List Char)
  | [], s => some s
  | _ :: _, [] => none
  | p :: ps, c :: cs => if ciEq p c then ciPrefixDrop ps cs else none

/-- Case-insensitive suffix test. -/
def ciIsSuffix (suf l : List Char) : Bool :=
  (ciPrefixDrop suf.reverse l.reverse).isSome

/-- The ref character class: ASCII letters, digits, dot, underscore,
hyphen, slash. -/
def isRefChar (c : Char) : Bool :=
  c.isAlpha || c.isDigit || c = '.' || c = '_' || c = '-' || c = '/'

/-- The keyword pattern `licen[cs]e` (case-insensitive) at the head. -/
def keywordAt : List Char → Bool
  | c1 :: c2 :: c3 :: c4 :: c5 :: c6 :: c7 :: _ =>
    ciEq c1 'l' && ciEq c2 'i' && ciEq c3 'c' && ciEq c4 'e' && ciEq c5 'n' &&
      (ciEq c6 'c' || ciEq c6 's') && ciEq c7 'e'
  | _ => false

/-- The label contains `licen[cs]e` case-insensitively somewhere. -/
def containsKeyword : List Char → Bool
  | [] => false
  | c :: rest => keywordAt (c :: rest) || containsKeyword rest

/-- Blob form: after `/blob/` the regex requires
a nonempty ref run, a slash, the license word, an optional md suffix and
the closing parenthesis.  The whole of it up to
`)` is one run of ref characters, so the match succeeds iff the maximal run
is followed by `)` and ends in `/LICENSE`, `/LICENCE`, `/LICENSE.md` or
`/LICENCE.md` (case-insensitively) preceded by a nonempty ref. -/
def blobTail (s : List Char) : Option (List Char) :=
  let run := s.takeWhile isRefChar
  match s.dropWhile isRefChar with
  | ')' :: after =>
    if (ciIsSuffix "/license".toList run && decide (8 < run.length)) ||
        (ciIsSuffix "/licence".toList run && decide (8 < run.length)) ||
        (ciIsSuffix "/license.md".toList run && decide (11 < run.length)) ||
        (ciIsSuffix "/licence.md".toList run && decide (11 < run.length)) then
      some after
    else none
  | _ => none

/-- Raw form: after the repository name the regex requires
a slash, a nonempty ref run, a slash, the license word, an optional md
suffix and the closing parenthesis; the run additionally
must begin with the explicit `/` and have a nonempty ref between the two
slashes. -/
def rawTail (s : List Char) : Option (List Char) :=
  let run := s.takeWhile isRefChar
  match s.dropWhile isRefChar with
  | ')' :: after =>
    if run.head? = some '/' &&
        ((ciIsSuffix "/license".toList run && decide (9 < run.length)) ||
          (ciIsSuffix "/licence".toList run && decide (9 < run.length)) ||
          (ciIsSuffix "/license.md".toList run && decide (12 < run.length)) ||
          (ciIsSuffix "/licence.md".toList run && decide (12 < run.length))) then
      some after
    else none
  | _ => none

/-- The owner alternation `(?:TensoRaws|EutropicAI)/` (case-insensitive). -/
def ownerDrop (s : List Char) : Option (List Char) :=
  (ciPrefixDrop "TensoRaws/".toList s).orElse
    (fun _ => ciPrefixDrop "EutropicAI/".toList s)

/-- The URL part of the blob pattern, applied to the text following the
opening parenthesis: host literal, owner alternation, repository name, the
`blob` segment, then `blobTail`. -/
def blobUrl (repo s3 : List Char) : Option (List Char) :=
  match ciPrefixDrop "https://github.com/".toList s3 with
  | some s4 =>
    match ownerDrop s4 with
    | some s5 =>
      match ciPrefixDrop repo s5 with
      | some s6 =>
        match ciPrefixDrop "/blob/".toList s6 with
        | some s7 => blobTail s7
        | none => none
      | none => none
    | none => none
  | none => none

/-- The URL part of the raw pattern, applied to the text following the
opening parenthesis: raw host literal, owner alternation, repository name,
then `rawTail`. -/
def rawUrl (repo s3 : List Char) : Option (List Char) :=
  match ciPrefixDrop "https://raw.githubusercontent.com/".toList s3 with
  | some s4 =>
    match ownerDrop s4 with
    | some s5 =>
      match ciPrefixDrop repo s5 with
      | some s6 => rawTail s6
      | none => none
    | none => none
  | none => none

/-- Match one markdown license link starting at the head of `s`: an opening
bracket, the lazy label up to the first closing bracket (which must contain
the keyword), the opening parenthesis, and a URL accepted by `murl`.
Returns the captured label and the text after the match. -/
def matchLinkAt (murl : List Char → Option (List Char)) (s : List Char) :
    Option (List Char × List Char) :=
  match s with
  | [] => none
  | c :: s1 =>
    if c = '[' then
      let label := s1.takeWhile (fun x => x ≠ ']')
      match s1.dropWhile (fun x => x ≠ ']') with
      | [] => none
      | _ :: s2 =>
        match s2 with
        | [] => none
        | d :: s3 =>
          if d = '(' then
            if containsKeyword label then
              match murl s3 with
              | some after => some (label, after)
              | none => none
            else none
          else none
    else none

/-- Match one blob-form license link starting at the head of `s`, returning
the captured label and the text after the match. -/
def matchBlobAt (repo : List Char) : List Char → Option (List Char × List Char) :=
  matchLinkAt (blobUrl repo)

/-- Match one raw-form license link starting at the head of `s`. -/
def matchRawAt (repo : List Char) : List Char → Option (List Char × List Char) :=
  matchLinkAt (rawUrl repo)

/-- `Pattern.subn` for a matcher whose replacement is
`"[" ++ label ++ "](./LICENSE)"`: scan left to right, replace each match and
continue after it, counting the replacements.  Fuel is instantiated with the
length of the text, which suffices because every match consumes at least one
character. -/
def scanReplace (m : List Char → Option (List Char × List Char)) :
    Nat → List Char → List Char × Nat
  | _, [] => ([], 0)
  | 0, l => (l, 0)
  | f + 1, c :: rest =>
    match m (c :: rest) with
    | some (label, after) =>
      let p := scanReplace m f after
      ('[' :: (label ++ "](./LICENSE)".toList ++ p.1), p.2 + 1)
    | none =>
      let p := scanReplace m f rest
      (c :: p.1, p.2)

/-- `convert_license_links` (script lines 235-253): apply the blob pass,
then the raw pass to its output; return the final text and the two
replacement counts. -/
def convert_license_links (text repo : List Char) : List Char × Nat × Nat :=
  let p1 := scanReplace (matchBlobAt repo) text.length text
  let p2 := scanReplace (matchRawAt repo) p1.1.length p1.1
  (p2.1, p1.2, p2.2)

/-- The Rewriter's per-file text transformation (script lines 287-296):
literal substitution when the old literal occurs in the text, followed, when
license conversion is enabled, by the blob-then-raw link normalisation.
Returns the new text with the three counts. -/
def transformContent (old new repo : List Char) (doLicense : Bool)
    (text : List Char) : List Char × Nat × Nat × Nat :=
  let r1 := if old <:+: text then replace_old_urls text old new else (text, 0)
  let r2 := if doLicense then convert_license_links r1.1 repo else (r1.1, 0, 0)
  (r2.1, r1.2, r2.2.1, r2.2.2)

/-- The text produced by the Rewriter for one file. -/
def rewriteText (old new repo : List Char) (doLicense : Bool)
    (text : List Char) : List Char :=
  (transformContent old new repo doLicense text).1

/-! ### `sanitize_branch_name` (script lines 88-93)

Python's `str.isalnum` is Unicode-aware, so it is abstracted as the
parameter `isalnum`; on ASCII characters it agrees with `Char.isAlphanum`,
which is used when the functions are evaluated on concrete ASCII inputs. -/

/-- The per-character pass: keep alphanumerics and `.`, `_`, `/`, `-`;
replace everything else by `-`. -/
def sanitizeMap (isalnum : Char → Bool) (s : List Char) : List Char :=
  s.map fun ch =>
    if isalnum ch = true ∨ ch ∈ ['.', '_', '/', '-'] then ch else '-'

/-- The loop `while "--" in safe: safe = safe.replace("--", "-")`, fuelled
by the length of the string (each round with a match strictly shortens the
string, so the fuel suffices). -/
def collapseDashes : Nat → List Char → List Char
  | 0, s => s
  | f + 1, s =>
    if ['-', '-'] <:+: s then collapseDashes f (pyReplace s ['-', '-'] ['-'])
    else s

/-- A character stripped from the ends: hyphen or slash. -/
def isSepEnd (c : Char) : Bool := c = '-' || c = '/'

/-- The Python strip over the hyphen-slash set: remove leading and
trailing hyphens and slashes. -/
def stripSep (s : List Char) : List Char :=
  ((s.dropWhile isSepEnd).reverse.dropWhile isSepEnd).reverse

/-- `sanitize_branch_name`: map characters, collapse double hyphens, strip
separator ends, and fall back to `update-urls` when empty. -/
def sanitize_branch_name (isalnum : Char → Bool) (s : List Char) : List Char :=
  let safe := sanitizeMap isalnum s
  let collapsed := collapseDashes safe.length safe
  let stripped := stripSep collapsed
  if stripped = [] then "update-urls".toList else stripped

/-! ### Files and the scanning / rewriting walks (script lines 158-225 and
256-309)

A file of the cloned working tree is modelled by the outcomes of the
operations the script performs on it: `stat` (size, or failure), the
extension test against `TEXT_LIKE_EXTS`, the `is_probably_text` byte probe,
the decoded content (`none` models a read failure; the byte string and its
decoding are conflated), and whether writing back succeeds.  The directory
walk with its pruned ignore-directories is modelled as the resulting list
of files in walk order. -/

structure FileEntry where
  path : List Char
  size : Option Nat
  extTexty : Bool
  probablyText : Bool
  content : Option (List Char)
  writeOk : Bool
  deriving DecidableEq

/-- The stat step: skip on stat failure or size above 5 MiB. -/
def sizeOk (f : FileEntry) : Bool :=
  match f.size with
  | none => false
  | some n => decide (n ≤ 5 * 1024 * 1024)

/-- A file that survives the stat and text-likeness filters. -/
def eligible (f : FileEntry) : Bool :=
  sizeOk f && (f.extTexty || f.probablyText)

/-- Python `bytes.upper` / `str.upper` (ASCII). -/
def pyUpper (s : List Char) : List Char := s.map Char.toUpper

/-- One file of the scan-only pass of `scan_repo`: the literal count (after
the containment pre-check), the license-keyword pre-check gating the regex
work, the two `findall` counts (the number of non-overlapping matches, i.e.
the count of the corresponding replacement pass), and the rule that a file
is reported iff some count is positive. -/
def scanFile (old repo : List Char) (convert : Bool) (f : FileEntry) :
    Option (List Char × Nat × Nat × Nat) :=
  if eligible f then
    match f.content with
    | none => none
    | some data =>
      let old_hits := if old <:+: data then pyCount data old else 0
      if old_hits ≠ 0 ∨ (convert = true ∧
          ("LICENSE".toList <:+: pyUpper data ∨ "LICENCE".toList <:+: pyUpper data)) then
        let blob_hits := if convert then (scanReplace (matchBlobAt repo) data.length data).2 else 0
        let raw_hits := if convert then (scanReplace (matchRawAt repo) data.length data).2 else 0
        if old_hits = 0 ∧ blob_hits = 0 ∧ raw_hits = 0 then none
        else some (f.path, old_hits, blob_hits, raw_hits)
      else none
  else none

/-- `scan_repo`: the read-only walk, reporting per file the three counts. -/
def scan_repo (old repo : List Char) (convert : Bool) :
    List FileEntry → List (List Char × Nat × Nat × Nat)
  | [] => []
  | f :: rest =>
    match scanFile old repo convert f with
    | some r => r :: scan_repo old repo convert rest
    | none => scan_repo old repo convert rest

/-- One file of the mutating pass of `apply_replacements`: transform the
content, write back only if it changed, record the file only when the write
succeeded and some count is positive. -/
def applyFile (old new repo : List Char) (doLic : Bool) (f : FileEntry) :
    Option (List Char × Nat × Nat × Nat) :=
  if eligible f then
    match f.content with
    | none => none
    | some text =>
      let t := transformContent old new repo doLic text
      if t.1 ≠ text then
        if f.writeOk then
          if t.2.1 ≠ 0 ∨ t.2.2.1 ≠ 0 ∨ t.2.2.2 ≠ 0 then
            some (f.path, t.2.1, t.2.2.1, t.2.2.2)
          else none
        else none
      else none
  else none

/-- `apply_replacements` (script lines 256-309): walk the files, rewrite
each, and accumulate the per-file records and the three totals. -/
def apply_replacements (old new repo : List Char) (doLic : Bool) :
    List FileEntry → List (List Char × Nat × Nat × Nat) × Nat × Nat × Nat
  | [] => ([], 0, 0, 0)
  | f :: rest =>
    let r := apply_replacements old new repo doLic rest
    match applyFile old new repo doLic f with
    | some pr => (pr :: r.1, pr.2.1 + r.2.1, pr.2.2.1 + r.2.2.1, pr.2.2.2 + r.2.2.2)
    | none => r

/-! ### `ensure_fork` (script lines 375-400) -/

structure Fork where
  owner : List Char
  name : List Char
  deriving DecidableEq

/-- The hosting-API environment of `ensure_fork`: the outcome of the n-th
`get_repo` probe of the fork name (attempt 0 is the initial lookup made
before any creation) and the outcome of `create_fork`. -/
structure ForkEnv where
  getFork : Nat → Except (List Char) Fork
  createFork : Except (List Char) Unit

inductive ForkErr where
  | createFailed (e : List Char)
  | timeout (lastErr : Option (List Char))
  deriving DecidableEq

/-- The polling loop of `ensure_fork`: probes run while the elapsed time is
below the 120-second timeout and every failure sleeps 2 seconds, so (with
idealised instantaneous probes) exactly `timeout / interval` attempts are
made; the argument `a` counts the attempts left.  On timeout the last
observed error is carried in the raised error. -/
def forkPoll (get : Nat → Except (List Char) Fork) :
    Nat → Nat → Option (List Char) → Except ForkErr Fork
  | _, 0, lastErr => .error (.timeout lastErr)
  | i, a + 1, _ =>
    match get i with
    | .ok f => .ok f
    | .error e => forkPoll get (i + 1) a (some e)

/-- `ensure_fork`: return an existing fork with `wasCreated = false`
without requesting creation; otherwise request creation (failure is
terminal) and poll for visibility.  The second component records whether
creation was requested. -/
def ensure_fork (env : ForkEnv) : Except ForkErr (Fork × Bool) × Bool :=
  match env.getFork 0 with
  | .ok f => (.ok (f, false), false)
  | .error _ =>
    match env.createFork with
    | .error e => (.error (.createFailed e), true)
    | .ok _ => ((forkPoll env.getFork 1 (120 / 2) none).map (fun f => (f, true)), true)

/-! ### The per-repository workflow (script lines 492-666) -/

inductive PushRemote where
  | origin
  | fork
  deriving DecidableEq

inductive Action where
  | clone
  | scan
  | branch (name : List Char)
  | rewrite
  | commit
  | ensureForkA
  | push (remote : PushRemote) (branch : List Char)
  | queryPR (head : List Char)
  | createPR (head : List Char)
  deriving DecidableEq

inductive CommitRes where
  | failed
  | nothingStaged
  | ok
  deriving DecidableEq

inductive Outcome where
  | skipCloneFailed
  | skipEmptyScan
  | dryRunHalt
  | skipUser
  | skipBranchFailed
  | skipNoDiff
  | skipNothingStaged
  | skipCommitFailed
  | skipForkFailed
  | skipPushForkFailed
  | skipFallbackForkFailed
  | publishedExisting (head url : List Char)
  | publishedNew (head url : List Char)
  | prFailed (head : List Char)
  deriving DecidableEq

/-- The run configuration consumed by the per-repository loop.  Python's
Unicode `isalnum` is threaded through for branch-name sanitisation. -/
structure Config where
  old : List Char
  new : List Char
  branch_prefix : List Char
  convertLicense : Bool
  dryRun : Bool
  confirm : Bool
  alwaysFork : Bool
  isalnum : Char → Bool

/-- The per-repository environment: repository metadata and the outcomes of
the external git and hosting-API operations the loop performs. -/
structure RepoEnv where
  repoName : List Char
  defaultBranch : Option (List Char)
  havePush : Bool
  cloneOk : Bool
  files : List FileEntry
  confirmYes : Bool
  branchOk : Bool
  commitRes : CommitRes
  forkEnv : ForkEnv
  pushOriginOk : Bool
  pushForkOk : Bool
  existingPRs : List (List Char)
  createPRRes : Except (List Char) (List Char)

/-- `repo.default_branch or "main"`. -/
def defaultBranchOf (env : RepoEnv) : List Char :=
  match env.defaultBranch with
  | none => "main".toList
  | some b => if b = [] then "main".toList else b

/-- Python `s.split(sep)[-1]` for a nonempty separator. -/
def lastComponent (sep s : List Char) : List Char :=
  (pySplitF sep s.length s).getLastD []

/-- The branch tail `from-...-to-...` built from the two literals (script
lines 551-552). -/
def branchTail (old new : List Char) : List Char :=
  "from-".toList ++ pyReplace (lastComponent "://".toList old) ['/'] ['-'] ++
    "-to-".toList ++ pyReplace (lastComponent "://".toList new) ['/'] ['-']

/-- The deterministic branch name (script line 553). -/
def branchNameOf (cfg : Config) : List Char :=
  sanitize_branch_name cfg.isalnum
    (cfg.branch_prefix ++ ['/'] ++ branchTail cfg.old cfg.new)

/-- The pull-request stage: query for an open PR with the computed head and
base; report the existing one, or create a new one (creation may fail). -/
def finishPR (env : RepoEnv) (head : List Char) (acts : List Action) :
    List Action × Outcome :=
  match env.existingPRs with
  | u :: _ => (acts ++ [Action.queryPR head], Outcome.publishedExisting head u)
  | [] =>
    match env.createPRRes with
    | .ok url => (acts ++ [Action.queryPR head, Action.createPR head],
        Outcome.publishedNew head url)
    | .error _ => (acts ++ [Action.queryPR head, Action.createPR head],
        Outcome.prFailed head)

/-- The body of the per-repository loop of `main` (script lines 492-666):
clone, scan (skip when empty), dry-run halt, confirmation gate, branch,
rewrite (skip when no totals), commit, fork resolution when forced or push
permission is absent, push (with fork fallback on a failed direct push),
and pull-request deduplication and creation.  Returns the performed
operations in order and the terminal outcome. -/
def processRepo (cfg : Config) (env : RepoEnv) : List Action × Outcome :=
  let use_fork := cfg.alwaysFork || !env.havePush
  if !env.cloneOk then ([Action.clone], Outcome.skipCloneFailed) else
  if (scan_repo cfg.old env.repoName cfg.convertLicense env.files).isEmpty then
    ([Action.clone, Action.scan], Outcome.skipEmptyScan) else
  if cfg.dryRun then ([Action.clone, Action.scan], Outcome.dryRunHalt) else
  if cfg.confirm && !env.confirmYes then
    ([Action.clone, Action.scan], Outcome.skipUser) else
  let branch := branchNameOf cfg
  if !env.branchOk then
    ([Action.clone, Action.scan, Action.branch branch], Outcome.skipBranchFailed) else
  let ar := apply_replacements cfg.old cfg.new env.repoName cfg.convertLicense env.files
  let acts0 := [Action.clone, Action.scan, Action.branch branch, Action.rewrite]
  if ar.2.1 = 0 ∧ ar.2.2.1 = 0 ∧ ar.2.2.2 = 0 then (acts0, Outcome.skipNoDiff) else
  match env.commitRes with
  | CommitRes.failed => (acts0 ++ [Action.commit], Outcome.skipCommitFailed)
  | CommitRes.nothingStaged => (acts0 ++ [Action.commit], Outcome.skipNothingStaged)
  | CommitRes.ok =>
    if use_fork then
      match (ensure_fork env.forkEnv).1 with
      | .error _ => (acts0 ++ [Action.commit, Action.ensureForkA], Outcome.skipForkFailed)
      | .ok fr =>
        if env.pushForkOk then
          finishPR env (fr.1.owner ++ ':' :: branch)
            (acts0 ++ [Action.commit, Action.ensureForkA,
              Action.push PushRemote.fork branch])
        else
          (acts0 ++ [Action.commit, Action.ensureForkA,
            Action.push PushRemote.fork branch], Outcome.skipPushForkFailed)
    else
      if env.pushOriginOk then
        finishPR env branch
          (acts0 ++ [Action.commit, Action.push PushRemote.origin branch])
      else
        match (ensure_fork env.forkEnv).1 with
        | .error _ =>
          (acts0 ++ [Action.commit, Action.push PushRemote.origin branch,
            Action.ensureForkA], Outcome.skipFallbackForkFailed)
        | .ok fr =>
          if env.pushForkOk then
            finishPR env (fr.1.owner ++ ':' :: branch)
              (acts0 ++ [Action.commit, Action.push PushRemote.origin branch,
                Action.ensureForkA, Action.push PushRemote.fork branch])
          else
            (acts0 ++ [Action.commit, Action.push PushRemote.origin branch,
              Action.ensureForkA, Action.push PushRemote.fork branch],
              Outcome.skipPushForkFailed)

/-- The batch loop: repositories are processed strictly sequentially and
independently. -/
def processBatch (cfg : Config) (envs : List RepoEnv) : List (List Action × Outcome) :=
  envs.map (processRepo cfg)

/-- The head reference used at the pull-request stage, when one was
reached. -/
def prHead? : Outcome → Option (List Char)
  | Outcome.publishedExisting h _ => some h
  | Outcome.publishedNew h _ => some h
  | Outcome.prFailed h => some h
  | _ => none

/-! ### Relations between the greedy scan, the replacement and the split -/

theorem pySplitF_ne_nil (old : List Char) : ∀ f t, pySplitF old f t ≠ [] := by
  intro f t
  match f, t with
  | f, [] => cases f <;> simp [pySplitF]
  | 0, _ :: _ => simp [pySplitF]
  | f + 1, c :: rest =>
    simp only [pySplitF]
    split
    · simp
    · split <;> simp

theorem pySplitF_head_prefix (old : List Char) :
    ∀ f t s ss, pySplitF old f t = s :: ss → s <+: t := by
  intro f
  induction f with
  | zero =>
    intro t s ss h
    cases t with
    | nil =>
      simp only [pySplitF, List.cons.injEq] at h
      exact h.1 ▸ List.nil_prefix
    | cons c rest =>
      simp only [pySplitF, List.cons.injEq] at h
      exact h.1 ▸ List.prefix_refl _
  | succ f ih =>
    intro t s ss h
    cases t with
    | nil =>
      simp only [pySplitF, List.cons.injEq] at h
      exact h.1 ▸ List.nil_prefix
    | cons c rest =>
      simp only [pySplitF] at h
      by_cases hp : old.isPrefixOf (c :: rest)
      · rw [if_pos hp] at h
        cases h
        exact List.nil_prefix
      · rw [if_neg hp] at h
        rcases hsp : pySplitF old f rest with _ | ⟨s0, ss0⟩
        · exact absurd hsp (pySplitF_ne_nil old f rest)
        · rw [hsp] at h
          injection h with h1 h2
          subst h1
          obtain ⟨u, hu⟩ := ih rest s0 ss0 hsp
          exact ⟨u, by rw [List.cons_append, hu]⟩

theorem intercalate_single (s a : List Char) : List.intercalate s [a] = a := by
  simp [List.intercalate]

theorem intercalate_cons₂ (s a b : List Char) (t : List (List Char)) :
    List.intercalate s (a :: b :: t) = a ++ s ++ List.intercalate s (b :: t) := by
  simp [List.intercalate, List.intersperse_cons_cons]

theorem intercalate_cons_ne_nil (s a : List Char) (l : List (List Char)) (h : l ≠ []) :
    List.intercalate s (a :: l) = a ++ s ++ List.intercalate s l := by
  cases l with
  | nil => exact absurd rfl h
  | cons b t => exact intercalate_cons₂ s a b t

theorem pyReplaceF_eq_intercalate (old new : List Char) :
    ∀ f t, pyReplaceF old new f t = List.intercalate new (pySplitF old f t) := by
  intro f
  induction f with
  | zero =>
    intro t
    cases t with
    | nil => simp [pyReplaceF, pySplitF, intercalate_single]
    | cons c rest => simp [pyReplaceF, pySplitF, intercalate_single]
  | succ f ih =>
    intro t
    cases t with
    | nil => simp [pyReplaceF, pySplitF, intercalate_single]
    | cons c rest =>
      simp only [pyReplaceF, pySplitF]
      by_cases hp : old.isPrefixOf (c :: rest)
      · rw [if_pos hp, if_pos hp,
          intercalate_cons_ne_nil _ _ _ (pySplitF_ne_nil old f _), ih]
        simp
      · rw [if_neg hp, if_neg hp]
        rcases hsp : pySplitF old f rest with _ | ⟨s0, ss0⟩
        · exact absurd hsp (pySplitF_ne_nil old f rest)
        · have hrw := ih rest
          rw [hsp] at hrw
          cases ss0 with
          | nil => simp [hrw, intercalate_single]
          | cons b t =>
            rw [hrw, intercalate_cons₂, intercalate_cons₂]
            simp

theorem pyCountF_succ_eq_length_split (old : List Char) :
    ∀ f t, pyCountF old f t + 1 = (pySplitF old f t).length := by
  intro f
  induction f with
  | zero =>
    intro t
    cases t <;> simp [pyCountF, pySplitF]
  | succ f ih =>
    intro t
    cases t with
    | nil => simp [pyCountF, pySplitF]
    | cons c rest =>
      simp only [pyCountF, pySplitF]
      by_cases hp : old.isPrefixOf (c :: rest)
      · rw [if_pos hp, if_pos hp]
        simp [← ih]
        omega
      · rw [if_neg hp, if_neg hp]
        rcases hsp : pySplitF old f rest with _ | ⟨s0, ss0⟩
        · exact absurd hsp (pySplitF_ne_nil old f rest)
        · have := ih rest
          rw [hsp] at this
          simpa using this

theorem pySplitF_no_old {old : List Char} (hold : old ≠ []) :
    ∀ f t, t.length ≤ f → ∀ s ∈ pySplitF old f t, ¬ old <:+: s := by
  intro f
  induction f with
  | zero =>
    intro t hlen s hs
    have : t = [] := List.length_eq_zero.mp (Nat.le_zero.mp hlen)
    subst this
    simp only [pySplitF, List.mem_singleton] at hs
    subst hs
    simpa [List.infix_nil] using hold
  | succ f ih =>
    intro t hlen s hs
    cases t with
    | nil =>
      simp only [pySplitF, List.mem_singleton] at hs
      subst hs
      simpa [List.infix_nil] using hold
    | cons c rest =>
      simp only [pySplitF] at hs
      have hrl : rest.length ≤ f := by
        simp only [List.length_cons] at hlen; omega
      by_cases hp : old.isPrefixOf (c :: rest)
      · rw [if_pos hp] at hs
        rcases List.mem_cons.mp hs with h | h
        · subst h
          simpa [List.infix_nil] using hold
        · exact ih _ (le_trans (by rw [List.length_drop]; exact Nat.sub_le _ _) hrl) s h
      · rw [if_neg hp] at hs
        rcases hsp : pySplitF old f rest with _ | ⟨s0, ss0⟩
        · exact absurd hsp (pySplitF_ne_nil old f rest)
        · rw [hsp] at hs
          rcases List.mem_cons.mp hs with h | h
          · subst h
            intro hinf
            rcases List.infix_cons_iff.mp hinf with hpre | hinf2
            · -- old is a prefix of c :: s0, and c :: s0 is a prefix of c :: rest
              obtain ⟨u, hu⟩ := pySplitF_head_prefix old f rest s0 ss0 hsp
              have : old <+: c :: rest :=
                hpre.trans ⟨u, by rw [List.cons_append, hu]⟩
              exact hp (List.isPrefixOf_iff_prefix.mpr this)
            · exact ih rest hrl s0 (by rw [hsp]; exact List.mem_cons_self s0 ss0) hinf2
          · exact ih rest hrl s (by rw [hsp]; exact List.mem_cons_of_mem s0 h)

/-! ### Occurrences crossing an append boundary -/

theorem prefix_append_cases {α : Type} {p a b : List α} (h : p <+: a ++ b) :
    p <+: a ∨ (a <+: p ∧ p.drop a.length <+: b) := by
  by_cases hl : p.length ≤ a.length
  · exact Or.inl (List.prefix_of_prefix_length_le h (List.prefix_append a b) hl)
  · right
    have ha : a <+: p :=
      List.prefix_of_prefix_length_le (List.prefix_append a b) h (by omega)
    refine ⟨ha, ?_⟩
    obtain ⟨t, ht⟩ := h
    refine ⟨t, ?_⟩
    have hd := congrArg (List.drop a.length) ht
    rw [List.drop_append_of_le_length (by omega), List.drop_left] at hd
    exact hd

theorem infix_append_cases {α : Type} {l a b : List α} (h : l <:+: a ++ b) :
    l <:+: a ∨ l <:+: b ∨
      ∃ k, 0 < k ∧ k < l.length ∧ l.take k <:+ a ∧ l.drop k <+: b := by
  induction a with
  | nil => exact Or.inr (Or.inl (by simpa using h))
  | cons c a2 iha =>
    rw [List.cons_append, List.infix_cons_iff] at h
    rcases h with hpre | hinf
    · have hpre' : l <+: (c :: a2) ++ b := by rwa [List.cons_append]
      rcases le_or_lt l.length (c :: a2).length with hle | hlt
      · exact Or.inl
          (List.prefix_of_prefix_length_le hpre' (List.prefix_append _ _) hle).isInfix
      · rcases prefix_append_cases hpre' with h1 | ⟨h2, h3⟩
        · exact absurd (h1.length_le) (by omega)
        · refine Or.inr (Or.inr ⟨(c :: a2).length, by simp, hlt, ?_, h3⟩)
          have : c :: a2 = l.take (c :: a2).length := List.prefix_iff_eq_take.mp h2
          rw [← this]
    · rcases iha hinf with h1 | h2 | ⟨k, hk0, hkl, hks, hkp⟩
      · exact Or.inl (List.infix_cons h1)
      · exact Or.inr (Or.inl h2)
      · exact Or.inr (Or.inr ⟨k, hk0, hkl, hks.trans (List.suffix_cons c a2), hkp⟩)

/-! ### No re-formation of `old` after replacement, under overlap-freeness -/

theorem not_infix_intercalate {old new : List Char} (hov : OverlapFree old new) :
    ∀ segs : List (List Char), segs ≠ [] → (∀ s ∈ segs, ¬ old <:+: s) →
      ¬ old <:+: List.intercalate new segs := by
  obtain ⟨hold, h1, h2, h4, h3⟩ := hov
  intro segs
  induction segs with
  | nil => intro h; exact absurd rfl h
  | cons a segs ih =>
    intro _ hfree
    cases segs with
    | nil =>
      rw [intercalate_single]
      exact hfree a (List.mem_singleton.mpr rfl)
    | cons b t =>
      rw [intercalate_cons₂, List.append_assoc]
      intro hinf
      rcases infix_append_cases hinf with ha | hrest | ⟨k, hk0, hkl, _, hkp⟩
      · exact hfree a (List.mem_cons_self a _) ha
      · rcases infix_append_cases hrest with hnew | hI | ⟨k, hk0, hkl, hks, _⟩
        · exact h1 hnew
        · exact ih (by simp) (fun s hs => hfree s (List.mem_cons_of_mem a hs)) hI
        · exact h3 k hkl hk0 hks
      · rcases prefix_append_cases hkp with hpn | ⟨hnp, _⟩
        · exact h4 k hkl hk0 hpn
        · exact h2 (hnp.isInfix.trans (List.drop_suffix k old).isInfix)

theorem not_infix_pyReplace {old new : List Char} (hov : OverlapFree old new)
    (text : List Char) : ¬ old <:+: pyReplace text old new := by
  have hold : old ≠ [] := hov.1
  rw [pyReplace, if_neg hold, pyReplaceF_eq_intercalate]
  exact not_infix_intercalate hov _ (pySplitF_ne_nil old _ _)
    (pySplitF_no_old hold _ _ (le_refl _))

theorem pyCountF_eq_zero_iff {old : List Char} (hold : old ≠ []) :
    ∀ f t, t.length ≤ f → (pyCountF old f t = 0 ↔ ¬ old <:+: t) := by
  intro f
  induction f with
  | zero =>
    intro t hlen
    have : t = [] := List.length_eq_zero.mp (Nat.le_zero.mp hlen)
    subst this
    simp [pyCountF, List.infix_nil, hold]
  | succ f ih =>
    intro t hlen
    cases t with
    | nil => simp [pyCountF, List.infix_nil, hold]
    | cons c rest =>
      have hrl : rest.length ≤ f := by
        simp only [List.length_cons] at hlen; omega
      simp only [pyCountF]
      by_cases hp : old.isPrefixOf (c :: rest)
      · rw [if_pos hp]
        constructor
        · omega
        · intro hni
          exact absurd (List.isPrefixOf_iff_prefix.mp hp).isInfix hni
      · rw [if_neg hp, ih rest hrl, List.infix_cons_iff]
        constructor
        · intro hni h
          rcases h with h | h
          · exact hp (List.isPrefixOf_iff_prefix.mpr h)
          · exact hni h
        · intro h
          exact fun hr => h (Or.inr hr)

theorem pyCount_eq_zero_iff {old : List Char} (hold : old ≠ []) (t : List Char) :
    pyCount t old = 0 ↔ ¬ old <:+: t := by
  rw [pyCount, if_neg hold]
  exact pyCountF_eq_zero_iff hold t.length t (le_refl _)

theorem pyReplaceF_of_count_zero (old new : List Char) :
    ∀ f t, pyCountF old f t = 0 → pyReplaceF old new f t = t := by
  intro f
  induction f with
  | zero => intro t _; cases t <;> simp [pyReplaceF]
  | succ f ih =>
    intro t hc
    cases t with
    | nil => simp [pyReplaceF]
    | cons c rest =>
      simp only [pyCountF] at hc
      simp only [pyReplaceF]
      by_cases hp : old.isPrefixOf (c :: rest)
      · rw [if_pos hp] at hc; omega
      · rw [if_neg hp] at hc
        rw [if_neg hp, ih rest hc]

theorem pyReplace_of_count_zero {old : List Char} (hold : old ≠ []) (new t : List Char)
    (h : pyCount t old = 0) : pyReplace t old new = t := by
  rw [pyCount, if_neg hold] at h
  rw [pyReplace, if_neg hold]
  exact pyReplaceF_of_count_zero old new t.length t h

/-! ### Claim C1 -/

/-- Claim C1 is refuted as stated: with `text = "abb"`, `old = "ab"`,
`new = "a"`, the literal `new` does not contain `old` as a substring and the
text contains one occurrence of `old`, yet the rewritten text `"ab"` still
contains an occurrence of `old` — not zero as the claim requires. -/
theorem C1_counterexample :
    ¬ ("ab".toList <:+: "a".toList) ∧
    replace_old_urls "abb".toList "ab".toList "a".toList = ("ab".toList, 1) ∧
    pyCount (replace_old_urls "abb".toList "ab".toList "a".toList).1 "ab".toList
      = 1 :=
  ⟨by decide, by decide, by decide⟩

/-- Claim C1 (amended): for every text and overlap-free literals `old`, `new`
(`old` nonempty, neither contains the other, no nonempty proper suffix of
`old` is a prefix of `new`, no nonempty proper prefix of `old` is a suffix of
`new`), if the text contains `k` non-overlapping occurrences of `old` then
`replace_old_urls` returns the count `k` together with the text obtained by
replacing exactly those `k` occurrences with `new` — the old-free segments of
the text interleaved with `k` copies of `new` — and the result contains zero
occurrences of `old`. -/
theorem C1_replace_old_urls_amended (text old new : List Char)
    (hov : OverlapFree old new) :
    replace_old_urls text old new =
      (List.intercalate new (pySplit old text), pyCount text old) ∧
    (pySplit old text).length = pyCount text old + 1 ∧
    (∀ s ∈ pySplit old text, ¬ old <:+: s) ∧
    pyCount (replace_old_urls text old new).1 old = 0 := by
  have hold : old ≠ [] := hov.1
  have hrepl : pyReplace text old new = List.intercalate new (pySplit old text) := by
    rw [pyReplace, if_neg hold, pyReplaceF_eq_intercalate, pySplit]
  have hfst : replace_old_urls text old new = (pyReplace text old new, pyCount text old) := by
    unfold replace_old_urls
    by_cases h : pyCount text old = 0
    · simp only [h, ne_eq, not_true_eq_false, if_false]
      rw [pyReplace_of_count_zero hold new text h]
    · simp [h]
  refine ⟨by rw [hfst, hrepl], ?_, ?_, ?_⟩
  · rw [pySplit, pyCount, if_neg hold, ← pyCountF_succ_eq_length_split]
  · exact pySplitF_no_old hold text.length text (le_refl _)
  · rw [hfst]
    exact (pyCount_eq_zero_iff hold _).mpr (not_infix_pyReplace hov text)

/-- Witness for the amended Claim C1: a concrete run of the theorem at
`text = "zabz"`, `old = "ab"`, `new = "xy"`. -/
theorem C1_witness :
    pyCount (replace_old_urls "zabz".toList "ab".toList "xy".toList).1
      "ab".toList = 0 :=
  (C1_replace_old_urls_amended "zabz".toList "ab".toList "xy".toList
    (by decide)).2.2.2

/-! ### Symbolic-label lemmas for the link matcher -/

theorem takeWhile_append_bracket (label r : List Char) (h : ']' ∉ label) :
    (label ++ ']' :: r).takeWhile (fun x => x ≠ ']') = label := by
  induction label with
  | nil => rw [List.nil_append, List.takeWhile_cons_of_neg (by simp)]
  | cons c l ih =>
    have hc : c ≠ ']' := fun hc => h (hc ▸ List.mem_cons_self c l)
    have hl : ']' ∉ l := fun hm => h (List.mem_cons_of_mem c hm)
    rw [List.cons_append, List.takeWhile_cons_of_pos (by simp [hc]), ih hl]

theorem dropWhile_append_bracket (label r : List Char) (h : ']' ∉ label) :
    (label ++ ']' :: r).dropWhile (fun x => x ≠ ']') = ']' :: r := by
  induction label with
  | nil => rw [List.nil_append, List.dropWhile_cons_of_neg (by simp)]
  | cons c l ih =>
    have hc : c ≠ ']' := fun hc => h (hc ▸ List.mem_cons_self c l)
    have hl : ']' ∉ l := fun hm => h (List.mem_cons_of_mem c hm)
    rw [List.cons_append, List.dropWhile_cons_of_pos (by simp [hc]), ih hl]

theorem matchLinkAt_some (murl : List Char → Option (List Char))
    (label s3 after : List Char) (hlab : ']' ∉ label)
    (hkey : containsKeyword label = true) (hm : murl s3 = some after) :
    matchLinkAt murl ('[' :: (label ++ (']' :: '(' :: s3))) = some (label, after) := by
  simp only [matchLinkAt, if_pos rfl,
    takeWhile_append_bracket label ('(' :: s3) hlab,
    dropWhile_append_bracket label ('(' :: s3) hlab]
  simp [hkey, hm]

theorem matchLinkAt_none_of_murl_none (murl : List Char → Option (List Char))
    (label s3 : List Char) (hlab : ']' ∉ label) (hm : murl s3 = none) :
    matchLinkAt murl ('[' :: (label ++ (']' :: '(' :: s3))) = none := by
  simp only [matchLinkAt, if_pos rfl,
    takeWhile_append_bracket label ('(' :: s3) hlab,
    dropWhile_append_bracket label ('(' :: s3) hlab]
  by_cases hkey : containsKeyword label
  · simp [hkey, hm]
  · simp [hkey]

theorem matchLinkAt_nil (murl : List Char → Option (List Char)) :
    matchLinkAt murl [] = none := rfl

theorem matchLinkAt_not_bracket (murl : List Char → Option (List Char))
    (c : Char) (u : List Char) (hc : c ≠ '[') :
    matchLinkAt murl (c :: u) = none := by
  simp [matchLinkAt, hc]

theorem suffix_append_cases {α : Type} {u a b : List α} (h : u <:+ a ++ b) :
    (∃ a2, a2 <:+ a ∧ u = a2 ++ b) ∨ u <:+ b := by
  induction a with
  | nil => exact Or.inr (by simpa using h)
  | cons c a3 ih =>
    rw [List.cons_append] at h
    rcases List.suffix_cons_iff.mp h with h | h
    · exact Or.inl ⟨c :: a3, List.suffix_refl _, by rw [h, List.cons_append]⟩
    · rcases ih h with ⟨a2, h2, h3⟩ | h2
      · exact Or.inl ⟨a2, h2.trans (List.suffix_cons c a3), h3⟩
      · exact Or.inr h2

/-- In a text of the shape `[label](s3`, the matcher fails at every suffix,
provided the label has no closing bracket, the URL matcher rejects `s3`, and
`s3` has no opening bracket. -/
theorem matchLinkAt_none_everywhere (murl : List Char → Option (List Char))
    (label s3 : List Char) (hlab : ']' ∉ label) (hm : murl s3 = none)
    (hs3 : '[' ∉ s3) :
    ∀ u, u <:+ ('[' :: (label ++ (']' :: '(' :: s3))) → matchLinkAt murl u = none := by
  intro u hu
  rcases List.suffix_cons_iff.mp hu with h | h
  · rw [h]; exact matchLinkAt_none_of_murl_none murl label s3 hlab hm
  · rcases suffix_append_cases h with ⟨l2, h2, h3⟩ | h2
    · subst h3
      cases l2 with
      | nil => exact matchLinkAt_not_bracket murl ']' _ (by decide)
      | cons c l3 =>
        have hcl : c ∈ label := h2.subset (List.mem_cons_self c l3)
        have hl3 : ']' ∉ l3 := fun hmem =>
          hlab (h2.subset (List.mem_cons_of_mem c hmem))
        by_cases hc : c = '['
        · subst hc
          rw [List.cons_append]
          exact matchLinkAt_none_of_murl_none murl l3 s3 hl3 hm
        · rw [List.cons_append]
          exact matchLinkAt_not_bracket murl c _ hc
    · cases u with
      | nil => exact matchLinkAt_nil murl
      | cons c u2 =>
        have hc : c ∈ ']' :: '(' :: s3 := h2.subset (List.mem_cons_self c u2)
        have : c ≠ '[' := by
          rcases List.mem_cons.mp hc with h | h
          · subst h; decide
          · rcases List.mem_cons.mp h with h | h
            · subst h; decide
            · exact fun hx => hs3 (hx ▸ h)
        exact matchLinkAt_not_bracket murl c u2 this

/-! ### The scanning pass -/

theorem scanReplace_none (m : List Char → Option (List Char × List Char)) :
    ∀ f t, (∀ u, u <:+ t → m u = none) → scanReplace m f t = (t, 0) := by
  intro f
  induction f with
  | zero => intro t _; cases t <;> simp [scanReplace]
  | succ f ih =>
    intro t h
    cases t with
    | nil => simp [scanReplace]
    | cons c rest =>
      have hm : m (c :: rest) = none := h _ (List.suffix_refl _)
      simp only [scanReplace, hm]
      rw [ih rest (fun u hu => h u (hu.trans (List.suffix_cons c rest)))]

theorem scanReplace_single (m : List Char → Option (List Char × List Char))
    (label R : List Char) (hm : m ('[' :: (label ++ R)) = some (label, [])) :
    scanReplace m ('[' :: (label ++ R)).length ('[' :: (label ++ R)) =
      ('[' :: (label ++ "](./LICENSE)".toList), 1) := by
  simp only [List.length_cons, scanReplace, hm]
  simp [scanReplace]

/-! ### Claim C2 -/

set_option maxRecDepth 4000 in
/-- Claim C2: for the scanned repository name (here `myrepo`),
`convert_license_links` rewrites a markdown link whose label contains a
license keyword and whose target is the blob-shape or raw-shape URL for an
allowed owner namespace and this repository into `[label](./LICENSE)`,
preserving the label verbatim; a `[Download](...)` link with a matching URL
is left unchanged, as is a link pointing at a different repository name;
the blob pass runs before the raw pass and the two returned counts are the
numbers of replacements performed by each pass. -/
theorem C2_convert_license_links (label owner : List Char)
    (hlab : ']' ∉ label) (hkey : containsKeyword label = true)
    (howner : owner = "TensoRaws".toList ∨ owner = "EutropicAI".toList) :
    convert_license_links
        ('[' :: (label ++ (']' :: '(' :: ("https://github.com/".toList ++
          owner ++ "/myrepo/blob/main/LICENSE.md)".toList))))
        "myrepo".toList
      = ('[' :: (label ++ "](./LICENSE)".toList), 1, 0) ∧
    convert_license_links
        ('[' :: (label ++ (']' :: '(' :: ("https://raw.githubusercontent.com/".toList ++
          owner ++ "/myrepo/v1.0/LICENSE)".toList))))
        "myrepo".toList
      = ('[' :: (label ++ "](./LICENSE)".toList), 0, 1) ∧
    convert_license_links
        "[Download](https://github.com/TensoRaws/myrepo/blob/main/LICENSE.md)".toList
        "myrepo".toList
      = ("[Download](https://github.com/TensoRaws/myrepo/blob/main/LICENSE.md)".toList,
          0, 0) ∧
    convert_license_links
        "[License](https://github.com/TensoRaws/otherrepo/blob/main/LICENSE.md)".toList
        "myrepo".toList
      = ("[License](https://github.com/TensoRaws/otherrepo/blob/main/LICENSE.md)".toList,
          0, 0) ∧
    convert_license_links
        "[license](https://github.com/TensoRaws/myrepo/blob/main/LICENSE) [licence](https://raw.githubusercontent.com/TensoRaws/myrepo/main/LICENCE.md)".toList
        "myrepo".toList
      = ("[license](./LICENSE) [licence](./LICENSE)".toList, 1, 1) := by
  have hout_none : ∀ u, u <:+ ('[' :: (label ++ "](./LICENSE)".toList)) →
      matchRawAt "myrepo".toList u = none := fun u hu =>
    matchLinkAt_none_everywhere (rawUrl "myrepo".toList) label "./LICENSE)".toList
      hlab (by decide) (by decide) u hu
  rcases howner with h | h <;> subst h <;>
    refine ⟨?_, ?_, by decide, by decide, by decide⟩
  · have hb : blobUrl "myrepo".toList ("https://github.com/".toList ++
        "TensoRaws".toList ++ "/myrepo/blob/main/LICENSE.md)".toList) = some [] := by
      decide
    have hmatch := matchLinkAt_some (blobUrl "myrepo".toList) label _ [] hlab hkey hb
    have h1 := scanReplace_single (matchBlobAt "myrepo".toList) label
      (']' :: '(' :: ("https://github.com/".toList ++ "TensoRaws".toList ++
        "/myrepo/blob/main/LICENSE.md)".toList)) hmatch
    have h2 := scanReplace_none (matchRawAt "myrepo".toList)
      ('[' :: (label ++ "](./LICENSE)".toList)).length
      ('[' :: (label ++ "](./LICENSE)".toList)) hout_none
    simp only [convert_license_links]
    rw [h1, h2]
  · have hb : blobUrl "myrepo".toList ("https://raw.githubusercontent.com/".toList ++
        "TensoRaws".toList ++ "/myrepo/v1.0/LICENSE)".toList) = none := by decide
    have hr : rawUrl "myrepo".toList ("https://raw.githubusercontent.com/".toList ++
        "TensoRaws".toList ++ "/myrepo/v1.0/LICENSE)".toList) = some [] := by decide
    have h1 := scanReplace_none (matchBlobAt "myrepo".toList)
      ('[' :: (label ++ (']' :: '(' :: ("https://raw.githubusercontent.com/".toList ++
        "TensoRaws".toList ++ "/myrepo/v1.0/LICENSE)".toList)))).length
      ('[' :: (label ++ (']' :: '(' :: ("https://raw.githubusercontent.com/".toList ++
        "TensoRaws".toList ++ "/myrepo/v1.0/LICENSE)".toList))))
      (matchLinkAt_none_everywhere (blobUrl "myrepo".toList) label _ hlab hb
        (by decide))
    have hmatch := matchLinkAt_some (rawUrl "myrepo".toList) label _ [] hlab hkey hr
    have h2 := scanReplace_single (matchRawAt "myrepo".toList) label
      (']' :: '(' :: ("https://raw.githubusercontent.com/".toList ++
        "TensoRaws".toList ++ "/myrepo/v1.0/LICENSE)".toList)) hmatch
    simp only [convert_license_links]
    rw [h1, h2]
  · have hb : blobUrl "myrepo".toList ("https://github.com/".toList ++
        "EutropicAI".toList ++ "/myrepo/blob/main/LICENSE.md)".toList) = some [] := by
      decide
    have hmatch := matchLinkAt_some (blobUrl "myrepo".toList) label _ [] hlab hkey hb
    have h1 := scanReplace_single (matchBlobAt "myrepo".toList) label
      (']' :: '(' :: ("https://github.com/".toList ++ "EutropicAI".toList ++
        "/myrepo/blob/main/LICENSE.md)".toList)) hmatch
    have h2 := scanReplace_none (matchRawAt "myrepo".toList)
      ('[' :: (label ++ "](./LICENSE)".toList)).length
      ('[' :: (label ++ "](./LICENSE)".toList)) hout_none
    simp only [convert_license_links]
    rw [h1, h2]
  · have hb : blobUrl "myrepo".toList ("https://raw.githubusercontent.com/".toList ++
        "EutropicAI".toList ++ "/myrepo/v1.0/LICENSE)".toList) = none := by decide
    have hr : rawUrl "myrepo".toList ("https://raw.githubusercontent.com/".toList ++
        "EutropicAI".toList ++ "/myrepo/v1.0/LICENSE)".toList) = some [] := by decide
    have h1 := scanReplace_none (matchBlobAt "myrepo".toList)
      ('[' :: (label ++ (']' :: '(' :: ("https://raw.githubusercontent.com/".toList ++
        "EutropicAI".toList ++ "/myrepo/v1.0/LICENSE)".toList)))).length
      ('[' :: (label ++ (']' :: '(' :: ("https://raw.githubusercontent.com/".toList ++
        "EutropicAI".toList ++ "/myrepo/v1.0/LICENSE)".toList))))
      (matchLinkAt_none_everywhere (blobUrl "myrepo".toList) label _ hlab hb
        (by decide))
    have hmatch := matchLinkAt_some (rawUrl "myrepo".toList) label _ [] hlab hkey hr
    have h2 := scanReplace_single (matchRawAt "myrepo".toList) label
      (']' :: '(' :: ("https://raw.githubusercontent.com/".toList ++
        "EutropicAI".toList ++ "/myrepo/v1.0/LICENSE)".toList)) hmatch
    simp only [convert_license_links]
    rw [h1, h2]

/-- Witness for Claim C2: the theorem applied to the concrete label
`my license` and owner `TensoRaws`; its first conjunct is retained. -/
theorem C2_witness :
    convert_license_links
        ('[' :: ("my license".toList ++ (']' :: '(' :: ("https://github.com/".toList ++
          "TensoRaws".toList ++ "/myrepo/blob/main/LICENSE.md)".toList))))
        "myrepo".toList
      = ('[' :: ("my license".toList ++ "](./LICENSE)".toList), 1, 0) :=
  (C2_convert_license_links "my license".toList "TensoRaws".toList
    (by decide) (by decide) (Or.inl rfl)).1

/-! ### Claim C3 -/

theorem rewriteText_false (old new repo text : List Char) :
    rewriteText old new repo false text =
      (if old <:+: text then replace_old_urls text old new else (text, 0)).1 := by
  simp [rewriteText, transformContent]

theorem rewriteText_true (old new repo text : List Char) :
    rewriteText old new repo true text =
      (convert_license_links (rewriteText old new repo false text) repo).1 := by
  simp [rewriteText, transformContent]

theorem not_infix_rewriteText_false {old new : List Char} (hov : OverlapFree old new)
    (repo text : List Char) : ¬ old <:+: rewriteText old new repo false text := by
  rw [rewriteText_false]
  by_cases h : old <:+: text
  · rw [if_pos h]
    have hcnt : pyCount text old ≠ 0 := fun h0 =>
      (pyCount_eq_zero_iff hov.1 text).mp h0 h
    simp only [replace_old_urls, if_pos hcnt]
    exact not_infix_pyReplace hov text
  · rw [if_neg h]; exact h

/-- Claim C3 is refuted as stated, in two independent ways.  First, for the
Rewriter configured with `old = "a"`, `new = "aa"` (license conversion
enabled, repository `r`), the content `"a"` rewrites to `"aa"` on the first
pass and to `"aaaa"` on the second.  Second, even overlap-free literals do
not suffice once license conversion is enabled: with the overlap-free pair
`old = "L](./LICENSE)"`, `new = "Z"`, the conversion pass manufactures an
occurrence of the old literal (the converted link ends in `L](./LICENSE)`),
which the second pass then substitutes. -/
theorem C3_counterexample :
    (rewriteText "a".toList "aa".toList "r".toList true
        (rewriteText "a".toList "aa".toList "r".toList true "a".toList) ≠
      rewriteText "a".toList "aa".toList "r".toList true "a".toList) ∧
    OverlapFree "L](./LICENSE)".toList "Z".toList ∧
    rewriteText "L](./LICENSE)".toList "Z".toList "r".toList true
        "[license L](https://github.com/TensoRaws/r/blob/m/LICENSE)".toList =
      "[license L](./LICENSE)".toList ∧
    rewriteText "L](./LICENSE)".toList "Z".toList "r".toList true
        "[license L](./LICENSE)".toList = "[license Z".toList := by
  refine ⟨by decide, by decide, by decide, by decide⟩

/-- Claim C3 (amended): the Rewriter's transformation is idempotent for
every file content provided the configured literals are overlap-free
(`old` nonempty, neither contains the other, and no nonempty proper
prefix/suffix of `old` is a suffix/prefix of `new` — the default
`TensoRaws` → `EutropicAI` configuration qualifies), and provided license
conversion is disabled or performs no conversion on the substituted
content. -/
theorem C3_rewriter_idempotent (old new repo : List Char) (doLicense : Bool)
    (text : List Char) (hov : OverlapFree old new)
    (hconv : doLicense = false ∨
      convert_license_links (rewriteText old new repo false text) repo =
        (rewriteText old new repo false text, 0, 0)) :
    rewriteText old new repo doLicense (rewriteText old new repo doLicense text) =
      rewriteText old new repo doLicense text := by
  have hni := not_infix_rewriteText_false hov repo text
  have hfix : rewriteText old new repo false (rewriteText old new repo false text) =
      rewriteText old new repo false text := by
    rw [rewriteText_false old new repo (rewriteText old new repo false text),
      if_neg hni]
  cases doLicense with
  | false => exact hfix
  | true =>
    rcases hconv with h | hc
    · simp at h
    · have h1 : rewriteText old new repo true text =
          rewriteText old new repo false text := by
        rw [rewriteText_true, hc]
      rw [h1, rewriteText_true, hfix, hc]

/-- Witness for the amended Claim C3: a concrete idempotent run with
license conversion enabled on link-free content. -/
theorem C3_witness :
    rewriteText "ab".toList "xy".toList "r".toList true
        (rewriteText "ab".toList "xy".toList "r".toList true "zabz".toList) =
      rewriteText "ab".toList "xy".toList "r".toList true "zabz".toList :=
  C3_rewriter_idempotent "ab".toList "xy".toList "r".toList true "zabz".toList
    (by decide) (Or.inr (by decide))

/-! ### Properties of `sanitize_branch_name` -/

theorem pyReplaceF_length_le {old new : List Char} (h : new.length ≤ old.length) :
    ∀ f t, (pyReplaceF old new f t).length ≤ t.length := by
  intro f
  induction f with
  | zero => intro t; cases t <;> simp [pyReplaceF]
  | succ f ih =>
    intro t
    cases t with
    | nil => simp [pyReplaceF]
    | cons c rest =>
      simp only [pyReplaceF]
      by_cases hp : old.isPrefixOf (c :: rest)
      · rw [if_pos hp]
        have h1 := ih (rest.drop (old.length - 1))
        have h2 : (old.length : Nat) ≤ rest.length + 1 :=
          (List.isPrefixOf_iff_prefix.mp hp).length_le
        simp only [List.length_append, List.length_drop] at h1 ⊢
        simp only [List.length_cons]
        omega
      · rw [if_neg hp]
        have := ih rest
        simp only [List.length_cons]
        omega

theorem pyReplaceF_length_lt {old new : List Char} (h : new.length < old.length) :
    ∀ f t, t.length ≤ f → pyCountF old f t ≠ 0 →
      (pyReplaceF old new f t).length < t.length := by
  intro f
  induction f with
  | zero =>
    intro t hlen hc
    have : t = [] := List.length_eq_zero.mp (Nat.le_zero.mp hlen)
    subst this
    simp [pyCountF] at hc
  | succ f ih =>
    intro t hlen hc
    cases t with
    | nil => simp [pyCountF] at hc
    | cons c rest =>
      simp only [pyCountF] at hc
      simp only [pyReplaceF]
      by_cases hp : old.isPrefixOf (c :: rest)
      · rw [if_pos hp]
        have h1 := pyReplaceF_length_le (le_of_lt h) f (rest.drop (old.length - 1))
        have h2 : (old.length : Nat) ≤ rest.length + 1 :=
          (List.isPrefixOf_iff_prefix.mp hp).length_le
        simp only [List.length_append, List.length_drop] at h1 ⊢
        simp only [List.length_cons]
        omega
      · rw [if_neg hp] at hc
        rw [if_neg hp]
        have hrl : rest.length ≤ f := by
          simp only [List.length_cons] at hlen; omega
        have := ih rest hrl hc
        simp only [List.length_cons]
        omega

theorem collapse_step_lt {s : List Char} (h : ['-', '-'] <:+: s) :
    (pyReplace s ['-', '-'] ['-']).length < s.length := by
  have hold : (['-', '-'] : List Char) ≠ [] := by decide
  rw [pyReplace, if_neg hold]
  refine pyReplaceF_length_lt (by decide) s.length s (le_refl _) (fun h0 => ?_)
  exact (pyCountF_eq_zero_iff hold s.length s (le_refl _)).mp h0 h

theorem collapseDashes_no_dd : ∀ f s, s.length ≤ f →
    ¬ ['-', '-'] <:+: collapseDashes f s := by
  intro f
  induction f with
  | zero =>
    intro s hlen
    have : s = [] := List.length_eq_zero.mp (Nat.le_zero.mp hlen)
    subst this
    simp [collapseDashes, List.infix_nil]
  | succ f ih =>
    intro s hlen
    simp only [collapseDashes]
    by_cases hdd : ['-', '-'] <:+: s
    · rw [if_pos hdd]
      exact ih _ (by have := collapse_step_lt hdd; omega)
    · rw [if_neg hdd]
      exact hdd

theorem collapseDashes_of_not {s : List Char} (h : ¬ ['-', '-'] <:+: s) :
    ∀ f, collapseDashes f s = s := by
  intro f
  cases f with
  | zero => rfl
  | succ f => simp only [collapseDashes]; rw [if_neg h]

theorem pyReplaceF_chars (old new : List Char) :
    ∀ f t c, c ∈ pyReplaceF old new f t → c ∈ t ∨ c ∈ new := by
  intro f
  induction f with
  | zero =>
    intro t c hc
    cases t with
    | nil => simp [pyReplaceF] at hc
    | cons a rest => exact Or.inl hc
  | succ f ih =>
    intro t c hc
    cases t with
    | nil => simp [pyReplaceF] at hc
    | cons a rest =>
      simp only [pyReplaceF] at hc
      by_cases hp : old.isPrefixOf (a :: rest)
      · rw [if_pos hp] at hc
        rcases List.mem_append.mp hc with h | h
        · exact Or.inr h
        · rcases ih _ c h with h2 | h2
          · exact Or.inl (List.mem_cons_of_mem a (List.mem_of_mem_drop h2))
          · exact Or.inr h2
      · rw [if_neg hp] at hc
        rcases List.mem_cons.mp hc with h | h
        · exact Or.inl (h ▸ List.mem_cons_self a rest)
        · rcases ih rest c h with h2 | h2
          · exact Or.inl (List.mem_cons_of_mem a h2)
          · exact Or.inr h2

theorem collapseDashes_chars :
    ∀ f s c, c ∈ collapseDashes f s → c ∈ s ∨ c = '-' := by
  intro f
  induction f with
  | zero => intro s c hc; exact Or.inl hc
  | succ f ih =>
    intro s c hc
    simp only [collapseDashes] at hc
    by_cases hdd : ['-', '-'] <:+: s
    · rw [if_pos hdd] at hc
      rcases ih _ c hc with h | h
      · rw [pyReplace, if_neg (by decide : (['-', '-'] : List Char) ≠ [])] at h
        rcases pyReplaceF_chars _ _ _ _ c h with h2 | h2
        · exact Or.inl h2
        · simp at h2; exact Or.inr h2
      · exact Or.inr h
    · rw [if_neg hdd] at hc
      exact Or.inl hc

theorem sanitizeMap_chars (isalnum : Char → Bool) (s : List Char) :
    ∀ c ∈ sanitizeMap isalnum s, isalnum c = true ∨ c ∈ ['.', '_', '/', '-'] := by
  intro c hc
  rcases List.mem_map.mp hc with ⟨a, _, ha⟩
  by_cases h : isalnum a = true ∨ a ∈ ['.', '_', '/', '-']
  · rw [if_pos h] at ha; exact ha ▸ h
  · rw [if_neg h] at ha
    exact Or.inr (ha ▸ (by decide : '-' ∈ ['.', '_', '/', '-']))

theorem sanitizeMap_id (isalnum : Char → Bool) (s : List Char)
    (h : ∀ c ∈ s, isalnum c = true ∨ c ∈ ['.', '_', '/', '-']) :
    sanitizeMap isalnum s = s := by
  induction s with
  | nil => rfl
  | cons a l ih =>
    have ha := h a (List.mem_cons_self a l)
    simp only [sanitizeMap, List.map_cons]
    rw [if_pos ha]
    have := ih (fun c hc => h c (List.mem_cons_of_mem a hc))
    simp only [sanitizeMap] at this
    rw [this]

theorem dropWhile_head_false {α : Type} (p : α → Bool) :
    ∀ (l : List α) c, (l.dropWhile p).head? = some c → p c = false := by
  intro l
  induction l with
  | nil => intro c hc; simp [List.dropWhile] at hc
  | cons a l ih =>
    intro c hc
    by_cases hp : p a = true
    · rw [List.dropWhile_cons_of_pos hp] at hc
      exact ih c hc
    · rw [List.dropWhile_cons_of_neg hp] at hc
      simp only [List.head?_cons, Option.some.injEq] at hc
      subst hc
      exact eq_false_of_ne_true hp

theorem stripSep_within (s : List Char) : stripSep s <:+: s := by
  have h1 : s.dropWhile isSepEnd <:+ s := List.dropWhile_suffix isSepEnd
  have h2 : (s.dropWhile isSepEnd).reverse.dropWhile isSepEnd <:+
      (s.dropWhile isSepEnd).reverse := List.dropWhile_suffix isSepEnd
  have h3 : stripSep s <+: s.dropWhile isSepEnd := by
    rw [stripSep]
    nth_rewrite 2 [← List.reverse_reverse (s.dropWhile isSepEnd)]
    exact List.reverse_prefix.mpr h2
  exact h3.isInfix.trans h1.isInfix

theorem stripSep_head (s : List Char) :
    ∀ c, (stripSep s).head? = some c → isSepEnd c = false := by
  intro c hc
  rw [stripSep, List.head?_reverse] at hc
  have hY : (s.dropWhile isSepEnd).reverse.dropWhile isSepEnd ≠ [] := by
    intro h0; rw [h0] at hc; simp at hc
  obtain ⟨w, hw⟩ := List.dropWhile_suffix (l := (s.dropWhile isSepEnd).reverse) isSepEnd
  have hlast : ((s.dropWhile isSepEnd).reverse.dropWhile isSepEnd).getLast? =
      (s.dropWhile isSepEnd).reverse.getLast? := by
    conv_rhs => rw [← hw]
    rw [List.getLast?_append]
    cases hY' : ((s.dropWhile isSepEnd).reverse.dropWhile isSepEnd).getLast? with
    | none => exact absurd (List.getLast?_eq_none_iff.mp hY') hY
    | some d => simp
  rw [hlast, List.getLast?_reverse] at hc
  exact dropWhile_head_false isSepEnd _ c hc

theorem stripSep_getLast (s : List Char) :
    ∀ c, (stripSep s).getLast? = some c → isSepEnd c = false := by
  intro c hc
  rw [stripSep, List.getLast?_reverse] at hc
  exact dropWhile_head_false isSepEnd _ c hc

theorem dropWhile_eq_self_of_head {α : Type} (p : α → Bool) (l : List α)
    (h : ∀ c, l.head? = some c → p c = false) : l.dropWhile p = l := by
  cases l with
  | nil => rfl
  | cons a t =>
    exact List.dropWhile_cons_of_neg (by simp [h a rfl])

theorem stripSep_eq_self (s : List Char)
    (hhead : ∀ c, s.head? = some c → isSepEnd c = false)
    (hlast : ∀ c, s.getLast? = some c → isSepEnd c = false) :
    stripSep s = s := by
  rw [stripSep, dropWhile_eq_self_of_head isSepEnd s hhead,
    dropWhile_eq_self_of_head isSepEnd s.reverse
      (fun c hc => hlast c (by rwa [List.head?_reverse] at hc)),
    List.reverse_reverse]

/-- The core case split for `sanitize_branch_name`: the result is the fixed
default, or it is nonempty, drawn from the allowed characters, free of
double hyphens, and neither starts nor ends with a hyphen or slash. -/
theorem sanitize_spec (isalnum : Char → Bool) (s : List Char) :
    sanitize_branch_name isalnum s = "update-urls".toList ∨
      (sanitize_branch_name isalnum s ≠ [] ∧
       (∀ c ∈ sanitize_branch_name isalnum s,
          isalnum c = true ∨ c ∈ ['.', '_', '/', '-']) ∧
       ¬ ['-', '-'] <:+: sanitize_branch_name isalnum s ∧
       (∀ c, (sanitize_branch_name isalnum s).head? = some c →
          isSepEnd c = false) ∧
       (∀ c, (sanitize_branch_name isalnum s).getLast? = some c →
          isSepEnd c = false)) := by
  by_cases hs : stripSep (collapseDashes (sanitizeMap isalnum s).length
      (sanitizeMap isalnum s)) = []
  · left
    simp only [sanitize_branch_name]
    rw [if_pos hs]
  · right
    have hr : sanitize_branch_name isalnum s =
        stripSep (collapseDashes (sanitizeMap isalnum s).length
          (sanitizeMap isalnum s)) := by
      simp only [sanitize_branch_name]
      rw [if_neg hs]
    refine ⟨by rw [hr]; exact hs, ?_, ?_, ?_, ?_⟩
    · intro c hc
      rw [hr] at hc
      have hc2 : c ∈ collapseDashes (sanitizeMap isalnum s).length
          (sanitizeMap isalnum s) := (stripSep_within _).subset hc
      rcases collapseDashes_chars _ _ c hc2 with h | h
      · exact sanitizeMap_chars isalnum s c h
      · exact Or.inr (h ▸ (by decide : '-' ∈ ['.', '_', '/', '-']))
    · rw [hr]
      intro hdd
      exact collapseDashes_no_dd _ _ (le_refl _) ((hdd.trans (stripSep_within _)))
    · rw [hr]; exact stripSep_head _
    · rw [hr]; exact stripSep_getLast _

/-! ### Claim C4 -/

/-- Claim C4 is refuted as stated: the claim requires repeated separators to
be collapsed, but on the ASCII input `a//b` (where Python's `isalnum` agrees
with `Char.isAlphanum`) the function returns `a//b` unchanged, with the
repeated separator `//` intact — the collapse loop only handles `--`. -/
theorem C4_counterexample :
    sanitize_branch_name Char.isAlphanum "a//b".toList = "a//b".toList ∧
    ['/', '/'] <:+: sanitize_branch_name Char.isAlphanum "a//b".toList :=
  ⟨by decide, by decide⟩

/-- Claim C4 (amended): for every input, `sanitize_branch_name` returns a
nonempty string whose characters are alphanumeric (per the abstracted
Unicode-aware `isalnum`, assumed to accept ASCII alphanumerics) or in the
set dot, underscore, slash, hyphen; repeated hyphens (only) are collapsed;
and the result either is the fixed default `update-urls` or neither starts
nor ends with a hyphen or slash (only these two separators are trimmed). -/
theorem C4_sanitize_amended (isalnum : Char → Bool)
    (hstd : ∀ c, c.isAlphanum = true → isalnum c = true) (s : List Char) :
    sanitize_branch_name isalnum s ≠ [] ∧
    (∀ c ∈ sanitize_branch_name isalnum s,
       isalnum c = true ∨ c ∈ ['.', '_', '/', '-']) ∧
    ¬ ['-', '-'] <:+: sanitize_branch_name isalnum s ∧
    (sanitize_branch_name isalnum s = "update-urls".toList ∨
      ((∀ c, (sanitize_branch_name isalnum s).head? = some c →
          isSepEnd c = false) ∧
       (∀ c, (sanitize_branch_name isalnum s).getLast? = some c →
          isSepEnd c = false))) := by
  rcases sanitize_spec isalnum s with hdef | ⟨hne, hchars, hdd, hhead, hlast⟩
  · refine ⟨by rw [hdef]; decide, ?_, by rw [hdef]; decide, Or.inl hdef⟩
    intro c hc
    rw [hdef] at hc
    fin_cases hc <;>
      first
        | exact Or.inl (hstd _ (by decide))
        | exact Or.inr (by decide)
  · exact ⟨hne, hchars, hdd, Or.inr ⟨hhead, hlast⟩⟩

/-- Witness for the amended Claim C4 on the concrete input
`feat: update URLs!!` with `Char.isAlphanum` for the ASCII fragment of
Python's `isalnum`. -/
theorem C4_witness :
    sanitize_branch_name Char.isAlphanum "feat: update URLs!!".toList ≠ [] ∧
    ¬ ['-', '-'] <:+:
        sanitize_branch_name Char.isAlphanum "feat: update URLs!!".toList :=
  ⟨(C4_sanitize_amended Char.isAlphanum (fun _ h => h) _).1,
   (C4_sanitize_amended Char.isAlphanum (fun _ h => h) _).2.2.1⟩

/-! ### Claim C10 -/

/-- Claim C10: `sanitize_branch_name` is idempotent — sanitizing a
sanitized branch name yields it unchanged (for any Unicode `isalnum` that
accepts ASCII alphanumerics, as Python's does). -/
theorem C10_sanitize_idempotent (isalnum : Char → Bool)
    (hstd : ∀ c, c.isAlphanum = true → isalnum c = true) (s : List Char) :
    sanitize_branch_name isalnum (sanitize_branch_name isalnum s) =
      sanitize_branch_name isalnum s := by
  rcases sanitize_spec isalnum s with hdef | ⟨hne, hchars, hdd, hhead, hlast⟩
  · rw [hdef]
    have hmap : sanitizeMap isalnum "update-urls".toList =
        "update-urls".toList := by
      have h1 := hstd 'u' (by decide)
      have h2 := hstd 'p' (by decide)
      have h3 := hstd 'd' (by decide)
      have h4 := hstd 'a' (by decide)
      have h5 := hstd 't' (by decide)
      have h6 := hstd 'e' (by decide)
      have h7 := hstd 'r' (by decide)
      have h8 := hstd 'l' (by decide)
      have h9 := hstd 's' (by decide)
      simp [sanitizeMap, h1, h2, h3, h4, h5, h6, h7, h8, h9]
    simp only [sanitize_branch_name]
    rw [hmap]
    decide
  · have hmap : sanitizeMap isalnum (sanitize_branch_name isalnum s) =
        sanitize_branch_name isalnum s := sanitizeMap_id isalnum _ hchars
    have hcol := collapseDashes_of_not hdd
      (sanitize_branch_name isalnum s).length
    have hstrip := stripSep_eq_self _ hhead hlast
    set r := sanitize_branch_name isalnum s with hr
    simp only [sanitize_branch_name]
    rw [hmap, hcol, hstrip, if_neg hne]

/-- Witness for Claim C10 at the concrete input `a--b//`. -/
theorem C10_witness :
    sanitize_branch_name Char.isAlphanum
        (sanitize_branch_name Char.isAlphanum "a--b//".toList) =
      sanitize_branch_name Char.isAlphanum "a--b//".toList :=
  C10_sanitize_idempotent Char.isAlphanum (fun _ h => h) _

/-! ### Claim C5 -/

theorem scanReplace_count_zero (m : List Char → Option (List Char × List Char)) :
    ∀ f t, (scanReplace m f t).2 = 0 → (scanReplace m f t).1 = t := by
  intro f
  induction f with
  | zero => intro t _; cases t <;> rfl
  | succ f ih =>
    intro t hz
    cases t with
    | nil => rfl
    | cons c rest =>
      simp only [scanReplace] at hz ⊢
      cases hm : m (c :: rest) with
      | some p =>
        try rw [hm] at hz
        have h2 : (scanReplace m f p.2).2 + 1 = 0 := hz
        omega
      | none =>
        try rw [hm] at hz
        have hz2 : (scanReplace m f rest).2 = 0 := hz
        try rw [hm]
        show c :: (scanReplace m f rest).1 = c :: rest
        rw [ih rest hz2]

theorem convert_license_links_unchanged (text repo : List Char)
    (hb : (convert_license_links text repo).2.1 = 0)
    (hr : (convert_license_links text repo).2.2 = 0) :
    (convert_license_links text repo).1 = text := by
  simp only [convert_license_links] at hb hr ⊢
  have h1 := scanReplace_count_zero (matchBlobAt repo) text.length text hb
  rw [h1] at hr ⊢
  exact scanReplace_count_zero (matchRawAt repo) text.length text hr

theorem transformContent_unchanged (old new repo : List Char) (doLic : Bool)
    (text : List Char)
    (h1 : (transformContent old new repo doLic text).2.1 = 0)
    (h2 : (transformContent old new repo doLic text).2.2.1 = 0)
    (h3 : (transformContent old new repo doLic text).2.2.2 = 0) :
    (transformContent old new repo doLic text).1 = text := by
  simp only [transformContent] at h1 h2 h3 ⊢
  have hr1 : (if old <:+: text then replace_old_urls text old new else (text, 0)).1
      = text := by
    by_cases hin : old <:+: text
    · rw [if_pos hin] at h1 ⊢
      exfalso
      simp only [replace_old_urls] at h1
      have hcnt : pyCount text old = 0 := by
        by_cases hc : pyCount text old ≠ 0
        · rw [if_pos hc] at h1; exact absurd h1 hc
        · push_neg at hc; exact hc
      by_cases hold : old = []
      · rw [pyCount, if_pos hold] at hcnt; omega
      · exact (pyCount_eq_zero_iff hold text).mp hcnt hin
    · rw [if_neg hin]
  rw [hr1] at h2 h3 ⊢
  cases doLic with
  | false => rfl
  | true =>
    simp only [if_pos] at h2 h3 ⊢
    exact convert_license_links_unchanged text repo h2 h3

/-- Claim C5: a file appears in the per-file change list returned by
`apply_replacements` iff it passed the eligibility filters, its content was
readable, the transformed content actually differs, and the write-back
succeeds; in particular a file with non-zero match counts whose substitution
is a no-op is not recorded, and a write failure for one file only skips that
file — the records are exactly the per-file `filterMap`, so the remaining
files are processed regardless. -/
theorem C5_apply_replacements (old new repo : List Char) (doLic : Bool)
    (files : List FileEntry) :
    (apply_replacements old new repo doLic files).1 =
      files.filterMap (applyFile old new repo doLic) ∧
    (∀ f ∈ files, (applyFile old new repo doLic f).isSome ↔
      (eligible f = true ∧ ∃ text, f.content = some text ∧
        (transformContent old new repo doLic text).1 ≠ text ∧
        f.writeOk = true)) := by
  constructor
  · induction files with
    | nil => rfl
    | cons f rest ih =>
      simp only [apply_replacements, List.filterMap_cons]
      cases h : applyFile old new repo doLic f <;> simp [h, ih]
  · intro f _
    constructor
    · intro hsome
      by_cases he : eligible f = true
      · cases hcontent : f.content with
        | none => simp [applyFile, he, hcontent] at hsome
        | some text =>
          refine ⟨he, text, rfl, ?_⟩
          simp only [applyFile, he, if_true, hcontent] at hsome
          by_cases hch : (transformContent old new repo doLic text).1 ≠ text
          · rw [if_pos hch] at hsome
            by_cases hw : f.writeOk = true
            · exact ⟨hch, hw⟩
            · simp only [Bool.not_eq_true] at hw
              simp [hw] at hsome
          · rw [if_neg hch] at hsome
            simp at hsome
      · simp [applyFile, he] at hsome
    · rintro ⟨he, text, hcontent, hchange, hwrite⟩
      have hcz : ¬((transformContent old new repo doLic text).2.1 = 0 ∧
          (transformContent old new repo doLic text).2.2.1 = 0 ∧
          (transformContent old new repo doLic text).2.2.2 = 0) := by
        rintro ⟨z1, z2, z3⟩
        exact hchange (transformContent_unchanged old new repo doLic text z1 z2 z3)
      simp only [applyFile, he, if_true, hcontent]
      rw [if_pos hchange, if_pos hwrite, if_pos (by
        by_contra hall
        push_neg at hall
        exact hcz ⟨hall.1, hall.2.1, hall.2.2⟩)]
      rfl

/-- Witness for Claim C5: three concrete files — one rewritten and
recorded, one whose write fails (skipped, without stopping the walk), and a
later one still recorded. -/
theorem C5_witness :
    (apply_replacements "ab".toList "Y".toList "r".toList false
        [⟨"f1".toList, some 10, true, false, some "xabx".toList, true⟩,
         ⟨"f2".toList, some 10, true, false, some "xabx".toList, false⟩,
         ⟨"f3".toList, some 10, true, false, some "ab".toList, true⟩]).1 =
      [("f1".toList, 1, 0, 0), ("f3".toList, 1, 0, 0)] := by
  rw [(C5_apply_replacements "ab".toList "Y".toList "r".toList false
    [⟨"f1".toList, some 10, true, false, some "xabx".toList, true⟩,
     ⟨"f2".toList, some 10, true, false, some "xabx".toList, false⟩,
     ⟨"f3".toList, some 10, true, false, some "ab".toList, true⟩]).1]
  decide

/-! ### Claim C9 -/

theorem forkPoll_all_fail (get : Nat → Except (List Char) Fork)
    (err : Nat → List Char) :
    ∀ a i le, 0 < a →
      (∀ m, i ≤ m → m < i + a → get m = .error (err m)) →
      forkPoll get i a le = .error (.timeout (some (err (i + a - 1)))) := by
  intro a
  induction a with
  | zero => intro i le h; omega
  | succ a ih =>
    intro i le _ hall
    simp only [forkPoll]
    rw [hall i (le_refl _) (by omega)]
    cases a with
    | zero => simp [forkPoll]
    | succ a2 =>
      show forkPoll get (i + 1) (a2 + 1) (some (err i)) =
        Except.error (ForkErr.timeout (some (err (i + (a2 + 1 + 1) - 1))))
      rw [ih (i + 1) (some (err i)) (by omega)
        (fun m h1 h2 => hall m (by omega) (by omega))]
      have : i + 1 + (a2 + 1) - 1 = i + (a2 + 1 + 1) - 1 := by omega
      rw [this]

theorem forkPoll_first_ok (get : Nat → Except (List Char) Fork)
    (err : Nat → List Char) :
    ∀ a i n fk le, i ≤ n → n < i + a →
      (∀ m, i ≤ m → m < n → get m = .error (err m)) → get n = .ok fk →
      forkPoll get i a le = .ok fk := by
  intro a
  induction a with
  | zero => intro i n fk le h1 h2 _ _; omega
  | succ a ih =>
    intro i n fk le h1 h2 hprev hok
    simp only [forkPoll]
    by_cases hin : i = n
    · subst hin; rw [hok]
    · rw [hprev i (le_refl _) (by omega)]
      exact ih (i + 1) n fk (some (err i)) (by omega) (by omega)
        (fun m hm1 hm2 => hprev m (by omega) hm2) hok

/-- Claim C9: `ensure_fork` returns an existing fork with
`wasCreated = false` without requesting creation whenever the initial
lookup succeeds; otherwise it requests fork creation and polls at the fixed
2-second interval up to the bounded 120-second timeout (60 attempts); when
every probe within the bound fails, it raises an error carrying the last
observed failure rather than returning silently, and the first successful
probe within the bound returns the fork with `wasCreated = true`. -/
theorem C9_ensure_fork (env : ForkEnv) (f0 : Fork) (e0 : List Char)
    (err : Nat → List Char) :
    (env.getFork 0 = .ok f0 → ensure_fork env = (.ok (f0, false), false)) ∧
    (env.getFork 0 = .error e0 → (ensure_fork env).2 = true) ∧
    (env.getFork 0 = .error e0 → env.createFork = .ok () →
      (∀ n, 1 ≤ n → n ≤ 60 → env.getFork n = .error (err n)) →
      ensure_fork env = (.error (.timeout (some (err 60))), true)) ∧
    (∀ n fk, env.getFork 0 = .error e0 → env.createFork = .ok () →
      1 ≤ n → n ≤ 60 →
      (∀ m, 1 ≤ m → m < n → env.getFork m = .error (err m)) →
      env.getFork n = .ok fk →
      ensure_fork env = (.ok (fk, true), true)) := by
  refine ⟨?_, ?_, ?_, ?_⟩
  · intro h
    simp [ensure_fork, h]
  · intro h
    simp only [ensure_fork]
    rw [h]
    cases hc : env.createFork <;> simp
  · intro h hc hall
    simp only [ensure_fork]
    rw [h, hc, show (120 / 2 : Nat) = 60 from rfl,
      forkPoll_all_fail env.getFork err 60 1 none (by omega)
        (fun m h1 h2 => hall m h1 (by omega))]
    rfl
  · intro n fk h hc hn1 hn60 hprev hok
    simp only [ensure_fork]
    rw [h, hc, show (120 / 2 : Nat) = 60 from rfl,
      forkPoll_first_ok env.getFork err 60 1 n fk none hn1 (by omega) hprev hok]
    rfl

/-- Witness for Claim C9: a fork environment whose probes all fail; the
result is the timeout error carrying the error of the 60th (last) poll. -/
theorem C9_witness :
    ensure_fork ⟨fun n => .error [Char.ofNat n], .ok ()⟩ =
      (.error (.timeout (some [Char.ofNat 60])), true) :=
  (C9_ensure_fork ⟨fun n => .error [Char.ofNat n], .ok ()⟩ ⟨[], []⟩
    [Char.ofNat 0] (fun n => [Char.ofNat n])).2.2.1 rfl rfl (fun _ _ _ => rfl)

/-! ### Claim C6 -/

/-- Claim C6: a repository whose scan produces an empty `ScanResult`
performs no branch creation, no rewrite, no commit, no push, no fork
resolution and no pull-request operation — its only performed operations
are the clone and the scan — and the batch continues with the next
repository. -/
theorem C6_skip_on_empty_scan (cfg : Config) (env : RepoEnv)
    (rest : List RepoEnv) (hclone : env.cloneOk = true)
    (hscan : scan_repo cfg.old env.repoName cfg.convertLicense env.files = []) :
    processRepo cfg env = ([Action.clone, Action.scan], Outcome.skipEmptyScan) ∧
    (∀ a ∈ (processRepo cfg env).1, a = Action.clone ∨ a = Action.scan) ∧
    processBatch cfg (env :: rest) = processRepo cfg env :: processBatch cfg rest := by
  have h1 : processRepo cfg env = ([Action.clone, Action.scan], Outcome.skipEmptyScan) := by
    simp [processRepo, hclone, hscan]
  refine ⟨h1, ?_, by simp [processBatch]⟩
  rw [h1]
  intro a ha
  simpa using ha

/-- Witness for Claim C6: a concrete configuration and repository whose
only file does not contain the old literal (conversion disabled), so the
scan is empty and the repository is skipped after clone and scan. -/
theorem C6_witness :
    processRepo
        ⟨"TensoRaws".toList, "EutropicAI".toList, "bp".toList, false, false,
          false, false, Char.isAlphanum⟩
        ⟨"repo".toList, some "main".toList, true, true,
          [⟨"f".toList, some 4, true, false, some "data".toList, true⟩],
          true, true, CommitRes.ok, ⟨fun _ => .error [], .ok ()⟩, true, true,
          [], .ok "url".toList⟩ =
      ([Action.clone, Action.scan], Outcome.skipEmptyScan) :=
  (C6_skip_on_empty_scan _ _ [] rfl (by decide)).1

/-! ### Claim C7 -/

theorem owner_head_ne (o b : List Char) : o ++ ':' :: b ≠ b := by
  intro h
  have := congrArg List.length h
  simp only [List.length_append, List.length_cons] at this
  omega

theorem sublist_fork_ops (acts0 : List Action) (b hd : List Char)
    (tail : List Action) :
    List.Sublist
      [Action.ensureForkA, Action.push PushRemote.fork b, Action.queryPR hd]
      ((acts0 ++ [Action.commit, Action.ensureForkA,
        Action.push PushRemote.fork b]) ++ (Action.queryPR hd :: tail)) := by
  rw [List.append_assoc]
  refine List.Sublist.trans ?_ (List.sublist_append_right acts0 _)
  show List.Sublist
    [Action.ensureForkA, Action.push PushRemote.fork b, Action.queryPR hd]
    (Action.commit :: Action.ensureForkA :: Action.push PushRemote.fork b ::
      Action.queryPR hd :: tail)
  exact ((((List.nil_sublist tail).cons₂ _).cons₂ _).cons₂ _).cons _

/-- Claim C7: when the acting identity lacks push permission or always-fork
mode is configured, any run that reaches the pull-request stage has first
resolved a fork, pushed the branch to the fork remote (in that order,
before the pull-request query), and uses a pull-request head of the form
`forkOwner:branchName`, never the bare branch name. -/
theorem C7_fork_head (cfg : Config) (env : RepoEnv) (acts : List Action)
    (out : Outcome) (hd : List Char)
    (hfork : cfg.alwaysFork = true ∨ env.havePush = false)
    (hrun : processRepo cfg env = (acts, out))
    (hpr : prHead? out = some hd) :
    ∃ fr wasC, (ensure_fork env.forkEnv).1 = Except.ok (fr, wasC) ∧
      hd = fr.owner ++ ':' :: branchNameOf cfg ∧
      hd ≠ branchNameOf cfg ∧
      List.Sublist [Action.ensureForkA,
        Action.push PushRemote.fork (branchNameOf cfg),
        Action.queryPR hd] acts := by
  have huf : (cfg.alwaysFork || !env.havePush) = true := by
    rcases hfork with h | h <;> simp [h]
  simp only [processRepo, huf, if_true, finishPR] at hrun
  repeat' split at hrun
  all_goals (rw [Prod.mk.injEq] at hrun; obtain ⟨h1, h2⟩ := hrun; subst h2)
  all_goals (try simp [prHead?] at hpr)
  all_goals
    first
      | (rename_i fr heqok hpush x u tl heqex
         subst hpr
         refine ⟨fr.1, fr.2, ?_, rfl, owner_head_ne _ _, ?_⟩
         · rw [heqok]
         · rw [← h1]
           exact sublist_fork_ops _ _ _ _)
      | (rename_i fr heqok hpush x1 heqex x2 u heqcr
         subst hpr
         refine ⟨fr.1, fr.2, ?_, rfl, owner_head_ne _ _, ?_⟩
         · rw [heqok]
         · rw [← h1]
           exact sublist_fork_ops _ _ _ _)

/-- Witness for Claim C7: a concrete repository without push permission
whose run publishes a pull request; the head is `me:bp/from-ab-to-xy`, not
the bare branch name, and fork resolution and the fork push precede the
pull-request query. -/
theorem C7_witness :
    ∃ fr wasC,
      (ensure_fork (⟨"repo".toList, some "main".toList, false, true,
          [⟨"f".toList, some 4, true, false, some "zabz".toList, true⟩],
          true, true, CommitRes.ok,
          ⟨fun _ => .ok ⟨"me".toList, "repo".toList⟩, .ok ()⟩,
          true, true, [], .ok "url".toList⟩ : RepoEnv).forkEnv).1 =
        Except.ok (fr, wasC) ∧
      "me:bp/from-ab-to-xy".toList =
        fr.owner ++ ':' :: branchNameOf
          ⟨"ab".toList, "xy".toList, "bp".toList, false, false, false, false,
            Char.isAlphanum⟩ ∧
      "me:bp/from-ab-to-xy".toList ≠ branchNameOf
        ⟨"ab".toList, "xy".toList, "bp".toList, false, false, false, false,
          Char.isAlphanum⟩ ∧
      List.Sublist [Action.ensureForkA,
        Action.push PushRemote.fork (branchNameOf
          ⟨"ab".toList, "xy".toList, "bp".toList, false, false, false, false,
            Char.isAlphanum⟩),
        Action.queryPR "me:bp/from-ab-to-xy".toList]
        [Action.clone, Action.scan,
          Action.branch "bp/from-ab-to-xy".toList, Action.rewrite,
          Action.commit, Action.ensureForkA,
          Action.push PushRemote.fork "bp/from-ab-to-xy".toList,
          Action.queryPR "me:bp/from-ab-to-xy".toList,
          Action.createPR "me:bp/from-ab-to-xy".toList] :=
  C7_fork_head
    ⟨"ab".toList, "xy".toList, "bp".toList, false, false, false, false,
      Char.isAlphanum⟩
    ⟨"repo".toList, some "main".toList, false, true,
      [⟨"f".toList, some 4, true, false, some "zabz".toList, true⟩],
      true, true, CommitRes.ok,
      ⟨fun _ => .ok ⟨"me".toList, "repo".toList⟩, .ok ()⟩,
      true, true, [], .ok "url".toList⟩
    [Action.clone, Action.scan,
      Action.branch "bp/from-ab-to-xy".toList, Action.rewrite,
      Action.commit, Action.ensureForkA,
      Action.push PushRemote.fork "bp/from-ab-to-xy".toList,
      Action.queryPR "me:bp/from-ab-to-xy".toList,
      Action.createPR "me:bp/from-ab-to-xy".toList]
    (Outcome.publishedNew "me:bp/from-ab-to-xy".toList "url".toList)
    "me:bp/from-ab-to-xy".toList
    (Or.inr rfl) (by decide) (by decide)

/-! ### Claim C8 -/

/-- Claim C8: when an open pull request with the computed head and base
already exists, the run reports that existing pull request's reference as
the successful outcome and never invokes pull-request creation. -/
theorem C8_pr_dedup (cfg : Config) (env : RepoEnv) (acts : List Action)
    (out : Outcome) (hd u : List Char) (us : List (List Char))
    (hex : env.existingPRs = u :: us)
    (hrun : processRepo cfg env = (acts, out))
    (hpr : prHead? out = some hd) :
    out = Outcome.publishedExisting hd u ∧
      ∀ h2, Action.createPR h2 ∉ acts := by
  by_cases huf : (cfg.alwaysFork || !env.havePush) = true
  · simp only [processRepo, huf, if_true, finishPR, hex] at hrun
    repeat' split at hrun
    all_goals (rw [Prod.mk.injEq] at hrun; obtain ⟨h1, h2⟩ := hrun; subst h2)
    all_goals (try simp [prHead?] at hpr)
    all_goals (subst hpr; refine ⟨rfl, ?_⟩; rw [← h1]; intro h2; simp)
  · have huf2 : (cfg.alwaysFork || !env.havePush) = false := by
      simpa using huf
    simp only [processRepo, huf2, Bool.false_eq_true, if_false, finishPR, hex] at hrun
    repeat' split at hrun
    all_goals (rw [Prod.mk.injEq] at hrun; obtain ⟨h1, h2⟩ := hrun; subst h2)
    all_goals (try simp [prHead?] at hpr)
    all_goals (subst hpr; refine ⟨rfl, ?_⟩; rw [← h1]; intro h2; simp)

/-- Witness for Claim C8: a concrete repository with an open pull request
`oldurl` for the computed head and base; the outcome reports it and no
creation action appears. -/
theorem C8_witness :
    (Outcome.publishedExisting "me:bp/from-ab-to-xy".toList "oldurl".toList =
      Outcome.publishedExisting "me:bp/from-ab-to-xy".toList "oldurl".toList) ∧
    ∀ h2, Action.createPR h2 ∉
      [Action.clone, Action.scan,
        Action.branch "bp/from-ab-to-xy".toList, Action.rewrite,
        Action.commit, Action.ensureForkA,
        Action.push PushRemote.fork "bp/from-ab-to-xy".toList,
        Action.queryPR "me:bp/from-ab-to-xy".toList] :=
  C8_pr_dedup
    ⟨"ab".toList, "xy".toList, "bp".toList, false, false, false, false,
      Char.isAlphanum⟩
    ⟨"repo".toList, some "main".toList, false, true,
      [⟨"f".toList, some 4, true, false, some "zabz".toList, true⟩],
      true, true, CommitRes.ok,
      ⟨fun _ => .ok ⟨"me".toList, "repo".toList⟩, .ok ()⟩,
      true, true, ["oldurl".toList], .ok "url".toList⟩
    [Action.clone, Action.scan,
      Action.branch "bp/from-ab-to-xy".toList, Action.rewrite,
      Action.commit, Action.ensureForkA,
      Action.push PushRemote.fork "bp/from-ab-to-xy".toList,
      Action.queryPR "me:bp/from-ab-to-xy".toList]
    (Outcome.publishedExisting "me:bp/from-ab-to-xy".toList "oldurl".toList)
    "me:bp/from-ab-to-xy".toList "oldurl".toList []
    rfl (by decide) (by decide)

example : pyCount "abab".toList "ab".toList = 2 := by decide
example : pyCount "aaa".toList "aa".toList = 1 := by decide
example : pyReplace "abb".toList "ab".toList "a".toList = "ab".toList := by decide
example : replace_old_urls "abb".toList "ab".toList "a".toList = ("ab".toList, 1) := by
  decide
example : pySplit "ab".toList "xaby".toList = ["x".toList, "y".toList] := by decide
example : pyReplace "a".toList [] "b".toList = "bab".toList := by decide

example :
    convert_license_links
      "[License](https://github.com/TensoRaws/myrepo/blob/main/LICENSE.md)".toList
      "myrepo".toList = ("[License](./LICENSE)".toList, 1, 0) := by decide

example :
    convert_license_links
      "[Download](https://github.com/TensoRaws/myrepo/blob/main/LICENSE.md)".toList
      "myrepo".toList =
      ("[Download](https://github.com/TensoRaws/myrepo/blob/main/LICENSE.md)".toList,
        0, 0) := by decide

example :
    convert_license_links
      "[License](https://raw.githubusercontent.com/EutropicAI/myrepo/v1.0/LICENCE)".toList
      "myrepo".toList = ("[License](./LICENSE)".toList, 0, 1) := by decide

example :
    convert_license_links
      "[License](https://github.com/TensoRaws/otherrepo/blob/main/LICENSE.md)".toList
      "myrepo".toList =
      ("[License](https://github.com/TensoRaws/otherrepo/blob/main/LICENSE.md)".toList,
        0, 0) := by decide

end BulkUpdate
